import Mathlib

/-!
Shallow embedding of the talent-engineer-tool core
(`src/api/app/{utils,ranking,embeddings,rag,orchestrator,main}.py`),
with theorems settling the frozen claims about it.

Numeric convention: Python floats are modelled by exact rationals `ℚ`
(and by `ℝ` where the code takes square roots); Python ints by `ℤ`/`ℕ`.
-/

/-- `utils.normalized_score(value, lo, hi)`: `0.0` if `hi <= lo`, else the
clamped value linearly mapped into `[0,1]`. -/
def normalized_score (value lo hi : ℚ) : ℚ :=
  if hi ≤ lo then 0
  else (max lo (min hi value) - lo) / (hi - lo)

/-- Python `str.lower` on a token, as used by `topical_fit`
(`k.lower()` / `t.lower()`): lowercase each character. -/
def lowerTok (s : String) : String := String.mk (s.data.map Char.toLower)

/-- `ranking.topical_fit(keywords_query, topics_candidate)`: `0.0` when
either list is empty; otherwise `|s_q ∩ s_c| / max(1, len(s_q))` where
`s_q`, `s_c` are the lowercased *sets* of the two lists.  Python's `set`
is modelled by `List.dedup`; the intersection size by filtering the
deduplicated query set for membership in the candidate set. -/
def topical_fit (keywords_query topics_candidate : List String) : ℚ :=
  if keywords_query = [] ∨ topics_candidate = [] then 0
  else
    let s_q := (keywords_query.map lowerTok).dedup
    let s_c := (topics_candidate.map lowerTok).dedup
    let inter := (s_q.filter (fun x => x ∈ s_c)).length
    (inter : ℚ) / max 1 (s_q.length : ℚ)

/-- `ranking.score_candidate(...)` — the returned `total` (the breakdown
dict is reporting-only and carries exactly the intermediate terms below).
`recent_year` is falsy in Python when `None` *or* `0`, in which case
recency is `0.0`. -/
def score_candidate (query_keywords topics : List String) (h_approx : ℚ)
    (best_citations : ℤ) (recent_year : Option ℤ) (current_year : ℤ)
    (embed_similarity : ℚ) (seniority_fit : ℚ) : ℚ :=
  let fit_keywords := topical_fit query_keywords topics
  let fit_embed := embed_similarity
  let fit := (1/2) * fit_keywords + (1/2) * fit_embed
  let impact := normalized_score (best_citations : ℚ) 0 500 * (7/10)
      + normalized_score h_approx 0 80 * (3/10)
  let recency :=
    match recent_year with
    | none => 0
    | some y =>
        if y = 0 then 0
        else normalized_score (y : ℚ) ((current_year : ℚ) - 15) (current_year : ℚ)
  (45/100) * fit + (30/100) * impact + (15/100) * recency + (10/100) * seniority_fit

/-- `ranking.estimate_seniority(years_active, h_approx, works_count)`.
`ya = years_active or 0` maps `None` to `0` (a stored `0` is unchanged). -/
def estimate_seniority (years_active : Option ℤ) (h_approx : ℚ)
    (works_count : ℕ) : String :=
  let ya := years_active.getD 0
  if ya ≥ 10 ∨ h_approx ≥ 25 ∨ works_count ≥ 80 then "principal"
  else if ya ≥ 6 ∨ h_approx ≥ 12 ∨ works_count ≥ 40 then "senior"
  else if ya ≥ 3 ∨ h_approx ≥ 6 ∨ works_count ≥ 15 then "mid"
  else "junior"

/-- The ordinal ladder of `seniority_fit_score`. -/
def seniorityOrder : List String := ["junior", "mid", "senior", "principal"]

/-- `ranking.seniority_fit_score(candidate_level, desired_level)`:
`1.0` if `desired_level` is falsy (`None` or `""`); `0.8` when either
level is missing from the ladder (Python's `ValueError` branch); else a
table lookup on the absolute ordinal distance capped at 3. -/
def seniority_fit_score (candidate_level : String)
    (desired_level : Option String) : ℚ :=
  match desired_level with
  | none => 1
  | some d =>
    if d = "" then 1
    else
      match seniorityOrder.indexOf? candidate_level, seniorityOrder.indexOf? d with
      | some ci, some di =>
          let diff := ((ci : ℤ) - (di : ℤ)).natAbs
          ([1, 4/5, 1/2, 1/5] : List ℚ).getD (min diff 3) 0
      | _, _ => 4/5

example : topical_fit ["ai", "ml"] ["AI"] = 1/2 := by
  simp only [topical_fit]
  rw [if_neg (by decide)]
  rw [show ((["ai", "ml"].map lowerTok).dedup.filter
      (fun x => x ∈ (["AI"].map lowerTok).dedup)).length = 1 from by decide]
  rw [show ((["ai", "ml"].map lowerTok).dedup).length = 2 from by decide]
  norm_num
example : seniority_fit_score "junior" (some "principal") = 1/5 := by
  simp only [seniority_fit_score,
    show seniorityOrder.indexOf? "junior" = some 0 from by decide,
    show seniorityOrder.indexOf? "principal" = some 3 from by decide,
    show ("principal" = "") = False from by decide, if_false]
  norm_num
example : normalized_score 600 0 500 = 1 := by norm_num [normalized_score]
example :
    score_candidate [] [] 0 0 none 2025 (-1) (1/5) = -41/200 := by
  norm_num [score_candidate, topical_fit, normalized_score]

lemma normalized_score_nonneg (v lo hi : ℚ) : 0 ≤ normalized_score v lo hi := by
  unfold normalized_score
  split
  · exact le_refl 0
  · rename_i h
    push_neg at h
    apply div_nonneg _ (le_of_lt (by linarith))
    simp [le_max_iff]

lemma normalized_score_le_one (v lo hi : ℚ) : normalized_score v lo hi ≤ 1 := by
  unfold normalized_score
  split
  · exact zero_le_one
  · rename_i h
    push_neg at h
    rw [div_le_one (by linarith)]
    have h1 : min hi v ≤ hi := min_le_left hi v
    have h2 : max lo (min hi v) ≤ hi := max_le (le_of_lt h) h1
    linarith

lemma topical_fit_nonneg (qk tc : List String) : 0 ≤ topical_fit qk tc := by
  unfold topical_fit
  split
  · exact le_refl 0
  · apply div_nonneg (by positivity)
    simp [le_max_iff]

lemma topical_fit_le_one (qk tc : List String) : topical_fit qk tc ≤ 1 := by
  unfold topical_fit
  split
  · exact zero_le_one
  · rw [div_le_one (by simp [lt_max_iff])]
    have hlen := List.length_filter_le
      (fun x => x ∈ (tc.map lowerTok).dedup) ((qk.map lowerTok).dedup)
    calc ((((qk.map lowerTok).dedup.filter
            (fun x => x ∈ (tc.map lowerTok).dedup)).length : ℚ))
        ≤ (((qk.map lowerTok).dedup.length : ℚ)) := by exact_mod_cast hlen
      _ ≤ max 1 (((qk.map lowerTok).dedup.length : ℚ)) := le_max_right _ _

lemma seniority_fit_score_mem (c : String) (d : Option String) :
    seniority_fit_score c d ∈ ([1, 4/5, 1/2, 1/5] : List ℚ) := by
  unfold seniority_fit_score
  rcases d with _ | s
  · simp
  · dsimp only
    by_cases hs : s = ""
    · simp [hs]
    · rw [if_neg hs]
      rcases h1 : seniorityOrder.indexOf? c with _ | ci <;>
        rcases h2 : seniorityOrder.indexOf? s with _ | di <;> dsimp only
      · simp
      · simp
      · simp
      · have h3 : min ((ci : ℤ) - (di : ℤ)).natAbs 3 = 0 ∨
            min ((ci : ℤ) - (di : ℤ)).natAbs 3 = 1 ∨
            min ((ci : ℤ) - (di : ℤ)).natAbs 3 = 2 ∨
            min ((ci : ℤ) - (di : ℤ)).natAbs 3 = 3 := by omega
        rcases h3 with h3 | h3 | h3 | h3 <;> rw [h3] <;> simp [List.getD]

lemma seniority_fit_score_nonneg (c : String) (d : Option String) :
    0 ≤ seniority_fit_score c d := by
  have := seniority_fit_score_mem c d
  simp at this
  rcases this with h | h | h | h <;> rw [h] <;> norm_num

lemma seniority_fit_score_le_one (c : String) (d : Option String) :
    seniority_fit_score c d ≤ 1 := by
  have := seniority_fit_score_mem c d
  simp at this
  rcases this with h | h | h | h <;> rw [h] <;> norm_num

/-- Recency term of `score_candidate` is within `[0,1]`. -/
lemma recency_bounds (ry : Option ℤ) (cy : ℤ) :
    0 ≤ (match ry with
         | none => (0 : ℚ)
         | some y => if y = 0 then 0
             else normalized_score (y : ℚ) ((cy : ℚ) - 15) (cy : ℚ)) ∧
    (match ry with
     | none => (0 : ℚ)
     | some y => if y = 0 then 0
         else normalized_score (y : ℚ) ((cy : ℚ) - 15) (cy : ℚ)) ≤ 1 := by
  match ry with
  | none => exact ⟨le_refl 0, zero_le_one⟩
  | some y =>
    dsimp only
    split
    · exact ⟨le_refl 0, zero_le_one⟩
    · exact ⟨normalized_score_nonneg _ _ _, normalized_score_le_one _ _ _⟩

/-- **C1 (counterexample).** With `embed_similarity = -1` (a legitimate
cosine value) and `seniority_fit = 1/5` (a fit-table output), the total
score returned by `score_candidate` is negative, refuting
`0 ≤ total_score` for all inputs with `embed_similarity ∈ [-1,1]`. -/
theorem score_candidate_negative_on_negative_cosine :
    seniority_fit_score "junior" (some "principal") = 1/5 ∧
    score_candidate [] [] 0 0 none 2025 (-1) (1/5) < 0 := by
  constructor
  · simp only [seniority_fit_score,
      show seniorityOrder.indexOf? "junior" = some 0 from by decide,
      show seniorityOrder.indexOf? "principal" = some 3 from by decide,
      show ("principal" = "") = False from by decide, if_false]
    norm_num
  · norm_num [score_candidate, topical_fit, normalized_score]

/-- **C1 (amended).** For every scoring input with `h_approx ≥ 0`,
`best_citations ≥ 0`, `embed_similarity ∈ [0,1]` (the nonnegative cosine
range the code's comment assumes) and `seniority_fit` produced by the fit
table, the total score satisfies `0 ≤ total_score ≤ 1`. -/
theorem score_candidate_bounds (qk topics : List String) (h_approx : ℚ)
    (bc : ℤ) (ry : Option ℤ) (cy : ℤ) (e sf : ℚ)
    (hh : 0 ≤ h_approx) (hbc : 0 ≤ bc) (he0 : 0 ≤ e) (he1 : e ≤ 1)
    (hsf : ∃ lvl req, seniority_fit_score lvl req = sf) :
    0 ≤ score_candidate qk topics h_approx bc ry cy e sf ∧
    score_candidate qk topics h_approx bc ry cy e sf ≤ 1 := by
  obtain ⟨lvl, req, hlr⟩ := hsf
  have hsf0 : 0 ≤ sf := hlr ▸ seniority_fit_score_nonneg lvl req
  have hsf1 : sf ≤ 1 := hlr ▸ seniority_fit_score_le_one lvl req
  unfold score_candidate
  have hfk0 := topical_fit_nonneg qk topics
  have hfk1 := topical_fit_le_one qk topics
  have hn10 := normalized_score_nonneg (bc : ℚ) 0 500
  have hn11 := normalized_score_le_one (bc : ℚ) 0 500
  have hn20 := normalized_score_nonneg h_approx 0 80
  have hn21 := normalized_score_le_one h_approx 0 80
  have hrec := recency_bounds ry cy
  obtain ⟨hr0, hr1⟩ := hrec
  constructor <;> [skip; skip] <;> dsimp only <;> nlinarith [hr0, hr1]

/-- **C7 (counterexample).** For the unrecognized level string `"staff"`,
`seniority_fit_score "staff" (some "staff")` is `0.8`, not `1.0`: the
`ValueError` fallback fires even when both arguments are equal. -/
theorem seniority_fit_score_refl_fails_on_unrecognized :
    seniority_fit_score "staff" (some "staff") ≠ 1 := by
  simp only [seniority_fit_score,
    show seniorityOrder.indexOf? "staff" = none from by decide,
    show ("staff" = "") = False from by decide, if_false]
  norm_num

/-- **C7 (amended).** `fit(level, level) = 1.0` for every level on the
recognized ladder (junior/mid/senior/principal); and `fit(A,B) = fit(B,A)`
for all nonempty level strings `A`, `B` (both arguments set). -/
theorem seniority_fit_score_refl_and_symm :
    (∀ l ∈ seniorityOrder, seniority_fit_score l (some l) = 1) ∧
    (∀ a b : String, a ≠ "" → b ≠ "" →
      seniority_fit_score a (some b) = seniority_fit_score b (some a)) := by
  constructor
  · intro l hl
    fin_cases hl
    · simp only [seniority_fit_score,
        show seniorityOrder.indexOf? "junior" = some 0 from by decide,
        show ("junior" = "") = False from by decide, if_false]
      norm_num
    · simp only [seniority_fit_score,
        show seniorityOrder.indexOf? "mid" = some 1 from by decide,
        show ("mid" = "") = False from by decide, if_false]
      norm_num
    · simp only [seniority_fit_score,
        show seniorityOrder.indexOf? "senior" = some 2 from by decide,
        show ("senior" = "") = False from by decide, if_false]
      norm_num
    · simp only [seniority_fit_score,
        show seniorityOrder.indexOf? "principal" = some 3 from by decide,
        show ("principal" = "") = False from by decide, if_false]
      norm_num
  · intro a b ha hb
    simp only [seniority_fit_score]
    rw [if_neg hb, if_neg ha]
    rcases h1 : seniorityOrder.indexOf? a with _ | ci <;>
      rcases h2 : seniorityOrder.indexOf? b with _ | di <;> dsimp only
    rw [show ((ci : ℤ) - (di : ℤ)).natAbs = ((di : ℤ) - (ci : ℤ)).natAbs from by
      rw [← Int.natAbs_neg, neg_sub]]

/-- Witness for `seniority_fit_score_refl_and_symm` at concrete levels. -/
theorem seniority_fit_score_refl_and_symm_witness :
    seniority_fit_score "mid" (some "mid") = 1 ∧
    seniority_fit_score "staff" (some "junior")
      = seniority_fit_score "junior" (some "staff") :=
  ⟨seniority_fit_score_refl_and_symm.1 "mid" (by decide),
   seniority_fit_score_refl_and_symm.2 "staff" "junior" (by decide) (by decide)⟩

/-- The fit formula the claim states (from the claim's words): lowercased
intersection size divided by `max(1, length of the given keyword list)`. -/
def topicalFitSpecListLen (qk tc : List String) : ℚ :=
  (((qk.map lowerTok).dedup.filter
      (fun x => x ∈ (tc.map lowerTok).dedup)).length : ℚ)
    / max 1 (qk.length : ℚ)

/-- The fit formula the code computes: the denominator counts *distinct*
lowercased keywords, not list entries. -/
def topicalFitDistinct (qk tc : List String) : ℚ :=
  (((qk.map lowerTok).dedup.filter
      (fun x => x ∈ (tc.map lowerTok).dedup)).length : ℚ)
    / max 1 (((qk.map lowerTok).dedup.length : ℚ))

/-- **C8 (counterexample).** On the duplicated keyword list
`["ai","ai"]` against topics `["ai"]`, the code returns `1` (denominator
is the 1-element *set* of keywords), while the claim's formula with the
keyword-list length gives `1/2`. -/
theorem topical_fit_list_length_counterexample :
    topical_fit ["ai", "ai"] ["ai"] ≠ topicalFitSpecListLen ["ai", "ai"] ["ai"] := by
  have h1 : topical_fit ["ai", "ai"] ["ai"] = 1 := by
    simp only [topical_fit]
    rw [if_neg (by decide)]
    rw [show ((["ai", "ai"].map lowerTok).dedup.filter
        (fun x => x ∈ (["ai"].map lowerTok).dedup)).length = 1 from by decide]
    rw [show ((["ai", "ai"].map lowerTok).dedup).length = 1 from by decide]
    norm_num
  have h2 : topicalFitSpecListLen ["ai", "ai"] ["ai"] = 1/2 := by
    simp only [topicalFitSpecListLen]
    rw [show ((["ai", "ai"].map lowerTok).dedup.filter
        (fun x => x ∈ (["ai"].map lowerTok).dedup)).length = 1 from by decide]
    norm_num
  rw [h1, h2]; norm_num

/-- **C8 (amended).** `topical_fit` equals the lowercased-intersection
size divided by `max(1, number of distinct lowercased keywords)`, and the
result lies in `[0,1]`. -/
theorem topical_fit_eq_distinct_and_bounds (qk tc : List String) :
    topical_fit qk tc = topicalFitDistinct qk tc ∧
    0 ≤ topical_fit qk tc ∧ topical_fit qk tc ≤ 1 := by
  refine ⟨?_, topical_fit_nonneg qk tc, topical_fit_le_one qk tc⟩
  by_cases h : qk = [] ∨ tc = []
  · rcases h with h | h <;> subst h
    · simp [topical_fit, topicalFitDistinct]
    · simp [topical_fit, topicalFitDistinct]
  · rw [topical_fit, if_neg h, topicalFitDistinct]

/-- Witness for `topical_fit_eq_distinct_and_bounds` (universally
quantified; instantiated at a concrete input). -/
theorem topical_fit_eq_distinct_and_bounds_witness :
    topical_fit ["AI", "ml"] ["ai"] = topicalFitDistinct ["AI", "ml"] ["ai"] ∧
    0 ≤ topical_fit ["AI", "ml"] ["ai"] ∧ topical_fit ["AI", "ml"] ["ai"] ≤ 1 :=
  topical_fit_eq_distinct_and_bounds ["AI", "ml"] ["ai"]

/-- Witness for `score_candidate_bounds` at a concrete input. -/
theorem score_candidate_bounds_witness :
    0 ≤ score_candidate ["ai"] ["ai"] 3 10 (some 2024) 2025 (1/2) (4/5) ∧
    score_candidate ["ai"] ["ai"] 3 10 (some 2024) 2025 (1/2) (4/5) ≤ 1 :=
  score_candidate_bounds ["ai"] ["ai"] 3 10 (some 2024) 2025 (1/2) (4/5)
    (by norm_num) (by norm_num) (by norm_num) (by norm_num)
    ⟨"junior", some "mid", by
      simp only [seniority_fit_score,
        show seniorityOrder.indexOf? "junior" = some 0 from by decide,
        show seniorityOrder.indexOf? "mid" = some 1 from by decide,
        show ("mid" = "") = False from by decide, if_false]
      norm_num⟩

/-! ## Persistence model (orchestrator store)

`models.py` rows, with uuid primary keys modelled by a counter
(`Store.next_id`); timestamps are irrelevant to the claims and omitted. -/

/-- `models.Candidate` (enrichment-relevant fields). -/
structure CandidateRow where
  id : ℕ
  name : String
  affiliation : Option String
  openalex_id : String
deriving DecidableEq, Repr

/-- `models.Publication`. -/
structure PublicationRow where
  candidate_id : ℕ
  title : String
  venue : Option String
  year : Option ℤ
  citations : ℕ
  abstract : Option String
  openalex_work_id : Option String
deriving DecidableEq, Repr

/-- `models.AffiliationYear`. -/
structure AffRow where
  candidate_id : ℕ
  org_name : String
  year : ℤ
  evidence_count : ℕ
deriving DecidableEq, Repr

/-- The `(candidate, year, organization)` triple of a row. -/
def AffRow.key (r : AffRow) : ℕ × ℤ × String := (r.candidate_id, r.year, r.org_name)

/-- `models.AnalysisSummary` (claim-relevant fields). -/
structure SummaryRow where
  candidate_id : ℕ
  topics : List String
  total_score : ℚ
  seniority : String
deriving DecidableEq, Repr

/-- The persistent store the orchestrator writes to. -/
structure Store where
  next_id : ℕ
  candidates : List CandidateRow
  publications : List PublicationRow
  affiliations : List AffRow
  summaries : List SummaryRow
deriving DecidableEq, Repr

/-- The AffiliationYear upsert of `orchestrator.run_search`: `SELECT`
the first row matching `(candidate_id, year, org_name)`; if found,
set its `evidence_count` to the read value plus one, else `INSERT` a
fresh row with `evidence_count = 1` (appended, as SQL insert). -/
def upsertAff : List AffRow → ℕ → ℤ → String → List AffRow
  | [], cid, yr, org => [⟨cid, org, yr, 1⟩]
  | r :: rs, cid, yr, org =>
    if r.candidate_id = cid ∧ r.year = yr ∧ r.org_name = org then
      { r with evidence_count := r.evidence_count + 1 } :: rs
    else
      r :: upsertAff rs cid yr org

/-- Number of rows carrying a given triple. -/
def affMult (rows : List AffRow) (k : ℕ × ℤ × String) : ℕ :=
  (rows.filter (fun r => r.key = k)).length

/-- Total evidence recorded for a given triple. -/
def affEvSum (rows : List AffRow) (k : ℕ × ℤ × String) : ℕ :=
  ((rows.filter (fun r => r.key = k)).map (fun r => r.evidence_count)).sum

/-- A sequential run's observations folded through the upsert. -/
def observeAffs (rows : List AffRow) (obs : List (ℕ × ℤ × String)) : List AffRow :=
  obs.foldl (fun rs o => upsertAff rs o.1 o.2.1 o.2.2) rows

lemma affMult_cons (r : AffRow) (rows : List AffRow) (k : ℕ × ℤ × String) :
    affMult (r :: rows) k
      = (if r.key = k then 1 else 0) + affMult rows k := by
  simp only [affMult, List.filter_cons]
  split
  · rename_i h
    rw [if_pos (by simpa using h)]
    simp [Nat.add_comm]
  · rename_i h
    rw [if_neg (by simpa using h)]
    simp

lemma affEvSum_cons (r : AffRow) (rows : List AffRow) (k : ℕ × ℤ × String) :
    affEvSum (r :: rows) k
      = (if r.key = k then r.evidence_count else 0) + affEvSum rows k := by
  simp only [affEvSum, List.filter_cons]
  split
  · rename_i h
    rw [if_pos (by simpa using h)]
    simp
  · rename_i h
    rw [if_neg (by simpa using h)]
    simp

lemma upsertAff_match_iff (r : AffRow) (cid : ℕ) (yr : ℤ) (org : String) :
    (r.candidate_id = cid ∧ r.year = yr ∧ r.org_name = org) ↔ r.key = (cid, yr, org) := by
  simp [AffRow.key, Prod.ext_iff]

lemma affEvSum_upsertAff (rows : List AffRow) (cid : ℕ) (yr : ℤ) (org : String)
    (k : ℕ × ℤ × String) :
    affEvSum (upsertAff rows cid yr org) k
      = affEvSum rows k + (if k = (cid, yr, org) then 1 else 0) := by
  induction rows with
  | nil =>
    rw [show upsertAff [] cid yr org = [⟨cid, org, yr, 1⟩] from rfl, affEvSum_cons]
    have hkey : (⟨cid, org, yr, 1⟩ : AffRow).key = (cid, yr, org) := rfl
    by_cases hk : k = (cid, yr, org)
    · rw [if_pos (by rw [hkey, hk]), if_pos hk]
      simp [affEvSum]
    · rw [if_neg (by rw [hkey]; exact fun h => hk h.symm), if_neg hk]
      simp [affEvSum]
  | cons r rs ih =>
    by_cases hmatch : r.candidate_id = cid ∧ r.year = yr ∧ r.org_name = org
    · have e1 : upsertAff (r :: rs) cid yr org
          = { r with evidence_count := r.evidence_count + 1 } :: rs := by
        simp only [upsertAff]
        rw [if_pos hmatch]
      rw [e1, affEvSum_cons, affEvSum_cons]
      have hkeq : ({ r with evidence_count := r.evidence_count + 1 } : AffRow).key
          = r.key := rfl
      have hkey : r.key = (cid, yr, org) := (upsertAff_match_iff r cid yr org).mp hmatch
      by_cases hk : k = (cid, yr, org)
      · rw [if_pos (by rw [hkeq, hkey, hk]), if_pos (by rw [hkey, hk]), if_pos hk]
        dsimp only
        omega
      · have hnk : ¬ r.key = k := by rw [hkey]; exact fun h => hk h.symm
        rw [if_neg (by rw [hkeq]; exact hnk), if_neg hnk, if_neg hk]
        omega
    · have e1 : upsertAff (r :: rs) cid yr org = r :: upsertAff rs cid yr org := by
        simp only [upsertAff]
        rw [if_neg hmatch]
      rw [e1, affEvSum_cons, affEvSum_cons, ih]
      omega

lemma affMult_upsertAff (rows : List AffRow) (cid : ℕ) (yr : ℤ) (org : String)
    (k : ℕ × ℤ × String) :
    affMult (upsertAff rows cid yr org) k
      = if k = (cid, yr, org) ∧ affMult rows (cid, yr, org) = 0
        then affMult rows k + 1 else affMult rows k := by
  induction rows with
  | nil =>
    rw [show upsertAff [] cid yr org = [⟨cid, org, yr, 1⟩] from rfl, affMult_cons]
    have hkey : (⟨cid, org, yr, 1⟩ : AffRow).key = (cid, yr, org) := rfl
    by_cases hk : k = (cid, yr, org)
    · rw [if_pos (by rw [hkey, hk]), if_pos ⟨hk, rfl⟩]
      simp [affMult]
    · rw [if_neg (by rw [hkey]; exact fun h => hk h.symm),
        if_neg (by rintro ⟨h, _⟩; exact hk h)]
      simp [affMult]
  | cons r rs ih =>
    by_cases hmatch : r.candidate_id = cid ∧ r.year = yr ∧ r.org_name = org
    · have e1 : upsertAff (r :: rs) cid yr org
          = { r with evidence_count := r.evidence_count + 1 } :: rs := by
        simp only [upsertAff]
        rw [if_pos hmatch]
      have hkey : r.key = (cid, yr, org) := (upsertAff_match_iff r cid yr org).mp hmatch
      have hmul : affMult (r :: rs) (cid, yr, org) ≠ 0 := by
        rw [affMult_cons, if_pos hkey]
        omega
      rw [if_neg (fun hc => hmul hc.2), e1, affMult_cons, affMult_cons]
      simp [AffRow.key]
    · have e1 : upsertAff (r :: rs) cid yr org = r :: upsertAff rs cid yr org := by
        simp only [upsertAff]
        rw [if_neg hmatch]
      have hkey : ¬ (r.key = (cid, yr, org)) :=
        fun h => hmatch ((upsertAff_match_iff r cid yr org).mpr h)
      have hmul : affMult (r :: rs) (cid, yr, org) = affMult rs (cid, yr, org) := by
        rw [affMult_cons, if_neg hkey]
        omega
      rw [hmul, e1, affMult_cons, affMult_cons r rs k, ih]
      by_cases hc : k = (cid, yr, org) ∧ affMult rs (cid, yr, org) = 0
      · rw [if_pos hc, if_pos hc]
        omega
      · rw [if_neg hc, if_neg hc]
lemma evidence_pos_upsertAff (rows : List AffRow) (cid : ℕ) (yr : ℤ) (org : String)
    (h : ∀ r ∈ rows, 1 ≤ r.evidence_count) :
    ∀ r ∈ upsertAff rows cid yr org, 1 ≤ r.evidence_count := by
  induction rows with
  | nil =>
    intro r hr
    simp only [upsertAff, List.mem_singleton] at hr
    subst hr; exact le_refl 1
  | cons r0 rs ih =>
    intro r hr
    simp only [upsertAff] at hr
    split at hr
    · rcases List.mem_cons.mp hr with h1 | h1
      · subst h1; simp
      · exact h r (List.mem_cons_of_mem _ h1)
    · rcases List.mem_cons.mp hr with h1 | h1
      · subst h1; exact h r (List.mem_cons_self _ _)
      · exact ih (fun x hx => h x (List.mem_cons_of_mem _ hx)) r h1

lemma affEvSum_observeAffs (obs : List (ℕ × ℤ × String)) :
    ∀ (rows : List AffRow) (k : ℕ × ℤ × String),
      affEvSum (observeAffs rows obs) k = affEvSum rows k + obs.count k := by
  induction obs with
  | nil => intro rows k; simp [observeAffs]
  | cons o os ih =>
    intro rows k
    have e1 : observeAffs rows (o :: os)
        = observeAffs (upsertAff rows o.1 o.2.1 o.2.2) os := rfl
    rw [e1, ih, affEvSum_upsertAff]
    have e2 : (o.1, o.2.1, o.2.2) = o := by
      rcases o with ⟨a, b, c⟩; rfl
    rw [e2]
    by_cases hko : k = o
    · subst hko
      simp [List.count_cons]
      omega
    · simp only [List.count_cons, beq_iff_eq, if_neg hko,
        if_neg (show ¬ o = k from fun h => hko h.symm)]
      omega

lemma affMult_observeAffs_le (obs : List (ℕ × ℤ × String)) :
    ∀ (rows : List AffRow), (∀ k, affMult rows k ≤ 1) →
      ∀ k, affMult (observeAffs rows obs) k ≤ 1 := by
  induction obs with
  | nil => intro rows h k; simpa [observeAffs] using h k
  | cons o os ih =>
    intro rows h k
    have e1 : observeAffs rows (o :: os)
        = observeAffs (upsertAff rows o.1 o.2.1 o.2.2) os := rfl
    rw [e1]
    refine ih _ (fun k0 => ?_) k
    rw [affMult_upsertAff]
    split
    · rename_i hcond
      rw [hcond.1, hcond.2]
    · exact h k0

/-- **C4.** Folding the `(candidate, year, organization)` observations of a
sequential enrichment run through the AffiliationYear upsert leaves at most
one row per triple, each surviving row's `evidence_count` equal to the
number of observations of its triple; in particular observing a triple
twice from an empty table yields exactly one row with `evidence_count = 2`. -/
theorem affiliationyear_upsert_invariant (obs : List (ℕ × ℤ × String)) :
    (∀ k, affMult (observeAffs [] obs) k ≤ 1) ∧
    (∀ r ∈ observeAffs [] obs, r.evidence_count = obs.count r.key) ∧
    (∀ (cid : ℕ) (yr : ℤ) (org : String),
      observeAffs [] [(cid, yr, org), (cid, yr, org)]
        = [⟨cid, org, yr, 2⟩]) := by
  have hmul : ∀ k, affMult (observeAffs [] obs) k ≤ 1 :=
    affMult_observeAffs_le obs [] (fun k => by simp [affMult]) 
  refine ⟨hmul, ?_, ?_⟩
  · intro r hr
    have hsum : affEvSum (observeAffs [] obs) r.key = obs.count r.key := by
      rw [affEvSum_observeAffs obs [] r.key]
      simp [affEvSum]
    have hmem : r ∈ (observeAffs [] obs).filter (fun x => x.key = r.key) :=
      List.mem_filter.mpr ⟨hr, by simp⟩
    have hlen1 : ((observeAffs [] obs).filter (fun x => x.key = r.key)).length = 1 := by
      have hge : 1 ≤ ((observeAffs [] obs).filter (fun x => x.key = r.key)).length :=
        List.length_pos.mpr (List.ne_nil_of_mem hmem)
      have hle := hmul r.key
      rw [affMult] at hle
      omega
    obtain ⟨a, ha⟩ := List.length_eq_one.mp hlen1
    have hra : r = a := by
      rw [ha] at hmem
      simpa using hmem
    rw [← hsum, affEvSum, ha, ← hra]
    simp
  · intro cid yr org
    have e0 : observeAffs [] [(cid, yr, org), (cid, yr, org)]
        = upsertAff (upsertAff [] cid yr org) cid yr org := rfl
    rw [e0, show upsertAff [] cid yr org = [⟨cid, org, yr, 1⟩] from rfl]
    simp only [upsertAff]
    rw [if_pos (by simp)]

/-- Witness for `affiliationyear_upsert_invariant` at a concrete
observation list, exercising the double-observation conjunct and the
multiplicity bound. -/
theorem affiliationyear_upsert_invariant_witness :
    observeAffs [] [(1, 2020, "mit"), (1, 2020, "mit")] = [⟨1, "mit", 2020, 2⟩] ∧
    affMult (observeAffs [] [(1, 2020, "mit"), (1, 2020, "mit")]) (1, 2020, "mit") ≤ 1 :=
  ⟨(affiliationyear_upsert_invariant []).2.2 1 2020 "mit",
   (affiliationyear_upsert_invariant [(1, 2020, "mit"), (1, 2020, "mit")]).1 (1, 2020, "mit")⟩

/-! ## Orchestrator model (`orchestrator.run_search`)

External collaborators (OpenAlex discovery/works, LLM topic extraction,
the embedder's cosine fit and the float-exponent h-index proxy
`min(works_count**0.5, cited_by_count**0.4)`) are oracles: their results
for each discovered author enter as input data.  An author whose
enrichment raises is an `Except.error` carrying the stringified cause. -/

/-- `openalex.search_authors` result item. -/
structure Author where
  id : String
  display_name : String
  affiliation : Option String
  works_count : ℕ
  cited_by_count : ℕ
deriving DecidableEq, Repr

/-- One work dict from `openalex.fetch_top_works`. -/
structure Work where
  title : String
  venue : Option String
  year : Option ℤ
  citations : ℕ
  abstract : Option String
  work_id : Option String
  org_at_publication : Option String
deriving DecidableEq, Repr

/-- The per-author enrichment results supplied by the collaborators:
the fetched works, the extracted topics, the embedding cosine fit
(`cosine_similarity(cand_vec, job_vec)`) and the h-index proxy. -/
structure AuthorData where
  works : List Work
  topics : List String
  embed_fit : ℚ
  h_approx : ℚ
deriving DecidableEq, Repr

/-- Job status strings of `models.JobStatus`. -/
inductive JStatus where
  | pending
  | running
  | done
  | error
deriving DecidableEq, Repr

/-- `models.Job` (claim-relevant fields). -/
structure JobRow where
  status : JStatus
  progress : ℤ
  error : Option String
deriving DecidableEq, Repr

/-- Events emitted on the per-job queue (payload projected to the fields
the events carry in `run_search`). -/
inductive Event where
  | progress (p : ℤ)
  | candidate (cid : ℕ) (name : String) (affiliation : Option String)
      (topics : List String) (score : ℚ) (seniority : String)
  | finished
  | error (msg : String)
deriving DecidableEq, Repr

/-- Is this a `candidate` event? -/
def Event.isCandidate : Event → Bool
  | .candidate _ _ _ _ _ _ => true
  | _ => false

/-- Is this an `error` event? -/
def Event.isError : Event → Bool
  | .error _ => true
  | _ => false

/-- Is this a `finished` event? -/
def Event.isFinished : Event → Bool
  | .finished => true
  | _ => false

/-- Job-side context computed before the loop: current year, the
requested seniority from the filters (`filters.get("seniority") or None`),
`top_keywords([job_text or query], k=12)` and `query.split()`. -/
structure RunCtx where
  now_year : ℤ
  requested_level : Option String
  job_keywords : List String
  query_words : List String
deriving DecidableEq, Repr

/-- `max([w.get("citations", 0) for w in works] + [0])`. -/
def bestCitations (works : List Work) : ℕ :=
  (works.map (fun w => w.citations)).foldl max 0

/-- `max([w.get("year") or 0 for w in works] + [0]) or None`:
a year that is `None` or `0` contributes `0`; a final maximum of `0`
becomes `None`. -/
def recentYear (works : List Work) : Option ℤ :=
  let m := (works.map (fun w => w.year.getD 0)).foldl max 0
  if m = 0 then none else some m

/-- `min([w.get("year") or now_year for w in works] + [now_year])`:
a year that is `None` or `0` contributes `now_year`. -/
def firstYear (works : List Work) (now_year : ℤ) : ℤ :=
  (works.map (fun w =>
    match w.year with
    | some y => if y = 0 then now_year else y
    | none => now_year)).foldl min now_year

/-- The body of the per-author loop of `run_search`: compute the derived
features and score, then persist Candidate + Publications + AffiliationYear
upserts + AnalysisSummary as one unit.  Returns the new store, the fresh
candidate id, the total score and the estimated seniority level. -/
def enrichAuthor (ctx : RunCtx) (st : Store) (a : Author) (d : AuthorData) :
    Store × ℕ × ℚ × String :=
  let best_citations := bestCitations d.works
  let recent_year := recentYear d.works
  let years_active := max 1 (ctx.now_year - firstYear d.works ctx.now_year + 1)
  let seniority_level := estimate_seniority (some years_active) d.h_approx a.works_count
  let sfit := seniority_fit_score seniority_level ctx.requested_level
  let score := score_candidate
    (if ctx.job_keywords = [] then ctx.query_words else ctx.job_keywords)
    d.topics d.h_approx (best_citations : ℤ) recent_year ctx.now_year
    d.embed_fit sfit
  let cid := st.next_id
  let st' : Store :=
    { next_id := cid + 1
      candidates := st.candidates ++ [⟨cid, a.display_name, a.affiliation, a.id⟩]
      publications := st.publications ++ d.works.map (fun w =>
        ⟨cid, w.title, w.venue, w.year, w.citations, w.abstract, w.work_id⟩)
      affiliations := d.works.foldl (fun rows w =>
        match w.org_at_publication, w.year with
        | some org, some yr => if org = "" then rows else upsertAff rows cid yr org
        | _, _ => rows) st.affiliations
      summaries := st.summaries ++ [⟨cid, d.topics, score, seniority_level⟩] }
  (st', cid, score, seniority_level)

/-- `int(5 + (step / max(1, total)) * 90)` — float truncation toward
zero of a nonnegative value, i.e. the floor. -/
def progressValue (step total : ℕ) : ℤ :=
  ⌊(5 : ℚ) + ((step : ℚ) / ((max 1 total : ℕ) : ℚ)) * 90⌋

/-- The per-author loop of `run_search`: each discovered author either
enriches (persist, emit a `candidate` event, bump and persist progress,
emit a `progress` event) or raises, which sets ERROR and emits one
`error` event; when the list is exhausted the job is DONE at 100 with a
`finished` event. -/
def runLoop (ctx : RunCtx) (total : ℕ) :
    List (Author × Except String AuthorData) → ℕ → JobRow → Store → List Event →
      JobRow × Store × List Event
  | [], _, job, st, evs =>
      ({ job with progress := 100, status := .done }, st, evs ++ [.finished])
  | (_, .error e) :: _, _, job, st, evs =>
      ({ job with status := .error, error := some e }, st, evs ++ [.error e])
  | (a, .ok d) :: rest, step, job, st, evs =>
      let r := enrichAuthor ctx st a d
      let evs1 := evs ++ [.candidate r.2.1 a.display_name a.affiliation
        d.topics r.2.2.1 r.2.2.2]
      let step1 := step + 1
      let prog := progressValue step1 total
      runLoop ctx total rest step1 { job with progress := prog } r.1
        (evs1 ++ [.progress prog])

/-- `orchestrator.run_search` for an existing job: mark RUNNING at
progress 1 and emit a `progress` event; a discovery failure sets ERROR;
an empty discovery result is success (DONE, 100, `finished`); otherwise
run the per-author loop. -/
def run_search (job : JobRow) (ctx : RunCtx)
    (discovery : Except String (List (Author × Except String AuthorData)))
    (st : Store) : JobRow × Store × List Event :=
  let job1 : JobRow := { job with status := .running, progress := 1 }
  let evs : List Event := [.progress 1]
  match discovery with
  | .error e => ({ job1 with status := .error, error := some e }, st, evs ++ [.error e])
  | .ok authors =>
    if authors.isEmpty then
      ({ job1 with status := .done, progress := 100 }, st, evs ++ [.finished])
    else
      runLoop ctx authors.length authors 0 job1 st evs

/-- **C5.** A run whose discovery returns an empty author list ends DONE
at progress 100, emits zero `candidate` events and exactly one `finished`
event — success, not failure. -/
theorem run_search_empty_discovery_is_success (job : JobRow) (ctx : RunCtx)
    (st : Store) :
    (run_search job ctx (.ok []) st).1.status = .done ∧
    (run_search job ctx (.ok []) st).1.progress = 100 ∧
    ((run_search job ctx (.ok []) st).2.2.filter Event.isCandidate).length = 0 ∧
    ((run_search job ctx (.ok []) st).2.2.filter Event.isFinished).length = 1 := by
  refine ⟨rfl, rfl, ?_, ?_⟩ <;> rfl

/-- `runLoop` only ever appends to the event list it is given. -/
lemma runLoop_events_eq (ctx : RunCtx) (total : ℕ) :
    ∀ (l : List (Author × Except String AuthorData)) (step : ℕ) (job : JobRow)
      (st : Store) (evs : List Event),
      (runLoop ctx total l step job st evs).2.2
        = evs ++ (runLoop ctx total l step job st []).2.2 := by
  intro l
  induction l with
  | nil => intro step job st evs; simp [runLoop]
  | cons p rest ih =>
    intro step job st evs
    rcases p with ⟨a, d⟩
    rcases d with e | d
    · simp [runLoop]
    · simp only [runLoop]
      rw [ih, ih ((step + 1)) _ _ (([] ++ _) ++ _)]
      simp

/-- Does position `j` of the discovery list hold an author whose
enrichment succeeds? -/
def okB : Option (Author × Except String AuthorData) → Bool
  | some (_, .ok _) => true
  | _ => false

/-- After `s` successfully enriched authors, the `s`-th emitted
`progress` event (list position `2s-1` relative to the loop's own
events) carries `progressValue (step + s) total`. -/
lemma runLoop_progress_get (ctx : RunCtx) (total : ℕ) :
    ∀ (s : ℕ) (l : List (Author × Except String AuthorData)) (step : ℕ)
      (job : JobRow) (st : Store),
      1 ≤ s → s ≤ l.length → (∀ j, j < s → okB (l.get? j) = true) →
      ((runLoop ctx total l step job st []).2.2).get? (2*s - 1)
        = some (.progress (progressValue (step + s) total)) := by
  intro s
  induction s with
  | zero =>
    intro l step job st h1 _ _
    exact absurd h1 (by norm_num)
  | succ s ih =>
    intro l step job st _ h2 h3
    rcases l with _ | ⟨⟨a, d⟩, rest⟩
    · simp at h2
    · have h0 := h3 0 (by omega)
      rcases d with e | d
      · simp [okB] at h0
      · simp only [runLoop]
        rw [runLoop_events_eq]
        simp only [List.nil_append, List.cons_append, List.append_nil]
        by_cases hs : s = 0
        · subst hs
          norm_num
        · have idx : 2 * (s + 1) - 1 = (2 * s - 1) + 1 + 1 := by omega
          rw [idx, List.get?_cons_succ, List.get?_cons_succ]
          have ihr := ih rest (step + 1)
            { job with progress := progressValue (step + 1) total }
            (enrichAuthor ctx st a d).1 (by omega)
            (by simp at h2; omega)
            (fun j hj => by
              have := h3 (j + 1) (by omega)
              simpa using this)
          rw [ihr, show step + 1 + s = step + (s + 1) from by omega]

/-- **C6 (amended).** For a run whose first `s ≥ 1` discovered authors
(out of `total = authors.length ≥ s`) enrich successfully, the progress
value emitted in the `progress` event after the `s`-th author (event
position `2s`, after the initial `progress 1`) — which is the same value
written to the job row — equals `⌊5 + 90·(s/total)⌋`, the float
*truncated* to an integer by `int(...)`. -/
theorem run_search_progress_events_floored (job : JobRow) (ctx : RunCtx)
    (st : Store) (authors : List (Author × Except String AuthorData)) (s : ℕ)
    (h1 : 1 ≤ s) (h2 : s ≤ authors.length)
    (h3 : ∀ j, j < s → okB (authors.get? j) = true) :
    ((run_search job ctx (.ok authors) st).2.2).get? (2*s)
      = some (.progress (progressValue s authors.length)) := by
  rcases authors with _ | ⟨p, rest⟩
  · simp at h2; omega
  · simp only [run_search, List.isEmpty_cons, Bool.false_eq_true, if_false]
    rw [runLoop_events_eq]
    have idx : 2*s = (2*s - 1) + 1 := by omega
    rw [idx, show ([Event.progress 1] ++
        (runLoop ctx (p :: rest).length (p :: rest) 0
          { job with status := .running, progress := 1 } st []).2.2)
      = Event.progress 1 ::
        (runLoop ctx (p :: rest).length (p :: rest) 0
          { job with status := .running, progress := 1 } st []).2.2 from rfl,
      List.get?_cons_succ]
    have h := runLoop_progress_get ctx (p :: rest).length s (p :: rest) 0
      { job with status := .running, progress := 1 } st h1 h2 h3
    simpa using h

/-- Witness for `run_search_progress_events_floored`: one author, one step. -/
theorem run_search_progress_events_floored_witness :
    ((run_search ⟨.pending, 0, none⟩ ⟨2025, none, [], []⟩
        (.ok [(⟨"A1", "Alice", none, 0, 0⟩, .ok ⟨[], [], 0, 0⟩)])
        ⟨0, [], [], [], []⟩).2.2).get? (2*1)
      = some (.progress (progressValue 1
          [((⟨"A1", "Alice", none, 0, 0⟩ : Author),
            (.ok ⟨[], [], 0, 0⟩ : Except String AuthorData))].length)) :=
  run_search_progress_events_floored ⟨.pending, 0, none⟩ ⟨2025, none, [], []⟩
    ⟨0, [], [], [], []⟩ [(⟨"A1", "Alice", none, 0, 0⟩, .ok ⟨[], [], 0, 0⟩)] 1
    (by norm_num) (by simp)
    (by intro j hj; interval_cases j; rfl)

/-- A trivial discovered author used for concrete runs. -/
def sampleAuthor : Author := ⟨"A1", "Alice", none, 0, 0⟩

/-- Trivial enrichment data (no works, no topics). -/
def sampleData : AuthorData := ⟨[], [], 0, 0⟩

/-- A trivial run context. -/
def sampleCtx : RunCtx := ⟨2025, none, [], []⟩

/-- The empty store. -/
def emptyStore : Store := ⟨0, [], [], [], []⟩

/-- A freshly created job row. -/
def pendingJob : JobRow := ⟨.pending, 0, none⟩

lemma progressValue_one_seven : progressValue 1 7 = 17 := by
  unfold progressValue
  rw [show (((max 1 7 : ℕ)) : ℚ) = 7 from by norm_num]
  rw [show (5 : ℚ) + ((1 : ℕ) : ℚ) / 7 * 90 = ((125 : ℤ) : ℚ) / ((7 : ℕ) : ℚ) from by
    push_cast; ring]
  rw [Rat.floor_intCast_div_natCast]
  decide

/-- **C6 (counterexample).** In a 7-author run whose authors all enrich,
the progress persisted and emitted after the first author is
`int(5 + (1/7)*90) = 17`, while rounding `5 + 90·(1/7)` to the nearest
integer gives `18`: the code truncates, it does not round to nearest. -/
theorem run_search_progress_rounding_counterexample :
    ((run_search pendingJob sampleCtx
        (.ok (List.replicate 7 (sampleAuthor, .ok sampleData))) emptyStore).2.2).get? 2
      = some (.progress 17) ∧
    round ((5 : ℚ) + 90 * ((1 : ℚ) / 7)) = 18 ∧ (17 : ℤ) ≠ 18 := by
  refine ⟨?_, ?_, by norm_num⟩
  · have h := runLoop_progress_get sampleCtx 7 1
      (List.replicate 7 (sampleAuthor, Except.ok sampleData)) 0
      { pendingJob with status := .running, progress := 1 } emptyStore
      (by norm_num) (by simp) (by intro j hj; interval_cases j; rfl)
    rw [show List.replicate 7 (sampleAuthor, Except.ok sampleData)
        = (sampleAuthor, Except.ok sampleData)
          :: List.replicate 6 (sampleAuthor, Except.ok sampleData) from rfl] at h ⊢
    simp only [run_search, List.isEmpty_cons, Bool.false_eq_true, if_false]
    rw [runLoop_events_eq]
    rw [show (2 : ℕ) = 0 + 1 + 1 from rfl]
    simp only [List.cons_append, List.nil_append, List.get?_cons_succ]
    rw [show ((sampleAuthor, Except.ok sampleData)
        :: List.replicate 6 (sampleAuthor, Except.ok sampleData)).length = 7 from by simp]
    rw [show (0 + 1 + 1 : ℕ) - 1 + 1 - 1 = 1 from rfl] at h
    rw [h, progressValue_one_seven]
  · rw [round_eq, show (5 : ℚ) + 90 * ((1 : ℚ) / 7) + 1/2
        = ((257 : ℤ) : ℚ) / ((14 : ℕ) : ℚ) from by push_cast; ring,
      Rat.floor_intCast_div_natCast]
    decide

/-- The job row and store produced by `runLoop` do not depend on the
already-emitted events. -/
lemma runLoop_job_store_indep (ctx : RunCtx) (total : ℕ) :
    ∀ (l : List (Author × Except String AuthorData)) (step : ℕ) (job : JobRow)
      (st : Store) (evs : List Event),
      (runLoop ctx total l step job st evs).1
        = (runLoop ctx total l step job st []).1 ∧
      (runLoop ctx total l step job st evs).2.1
        = (runLoop ctx total l step job st []).2.1 := by
  intro l
  induction l with
  | nil => intro step job st evs; exact ⟨rfl, rfl⟩
  | cons p rest ih =>
    intro step job st evs
    rcases p with ⟨a, d⟩
    rcases d with e | d
    · exact ⟨rfl, rfl⟩
    · simp only [runLoop]
      exact ⟨((ih _ _ _ _).1).trans ((ih _ _ _ _).1).symm,
        ((ih _ _ _ _).2).trans ((ih _ _ _ _).2).symm⟩

/-- The `(author, data)` pairs of the successfully enriched prefix. -/
def okPrefixData (l : List (Author × Except String AuthorData)) :
    List (Author × AuthorData) :=
  l.filterMap (fun p => match p.2 with
    | .ok d => some (p.1, d)
    | .error _ => none)

/-- Persist a sequence of enriched authors (the loop's store effect). -/
def processPrefix (ctx : RunCtx) (st : Store) (ps : List (Author × AuthorData)) :
    Store :=
  ps.foldl (fun s p => (enrichAuthor ctx s p.1 p.2).1) st

/-- If the author at position `i` raises while all earlier ones enrich,
`runLoop` ends ERROR with that message, emits exactly one `error` event
and `i` `candidate` events, and the final store is exactly the fold of
the `i` successful persists over the incoming store. -/
lemma runLoop_error_at (ctx : RunCtx) (total : ℕ) :
    ∀ (i : ℕ) (l : List (Author × Except String AuthorData)) (step : ℕ)
      (job : JobRow) (st : Store) (a : Author) (e : String),
      l.get? i = some (a, .error e) →
      (∀ j, j < i → okB (l.get? j) = true) →
      (runLoop ctx total l step job st []).1.status = .error ∧
      (runLoop ctx total l step job st []).1.error = some e ∧
      (runLoop ctx total l step job st []).2.1
        = processPrefix ctx st (okPrefixData (l.take i)) ∧
      ((runLoop ctx total l step job st []).2.2.filter Event.isError).length = 1 ∧
      ((runLoop ctx total l step job st []).2.2.filter Event.isCandidate).length = i := by
  intro i
  induction i with
  | zero =>
    intro l step job st a e hget _
    rcases l with _ | ⟨⟨a0, d0⟩, rest⟩
    · simp at hget
    · simp only [List.get?] at hget
      injection hget with hget
      rw [show d0 = Except.error e from congrArg Prod.snd hget]
      refine ⟨rfl, rfl, rfl, rfl, rfl⟩
  | succ i ih =>
    intro l step job st a e hget h3
    rcases l with _ | ⟨⟨a0, d0⟩, rest⟩
    · simp at hget
    · have h0 := h3 0 (by omega)
      rcases d0 with e0 | d0
      · simp [okB] at h0
      · simp only [List.get?] at hget
        simp only [runLoop]
        have hrest := ih rest (step + 1)
          { job with progress := progressValue (step + 1) total }
          (enrichAuthor ctx st a0 d0).1 a e hget
          (fun j hj => by
            have := h3 (j + 1) (by omega)
            simpa using this)
        have hindep := runLoop_job_store_indep ctx total rest (step + 1)
          { job with progress := progressValue (step + 1) total }
          (enrichAuthor ctx st a0 d0).1
          (([] ++ [Event.candidate (enrichAuthor ctx st a0 d0).2.1 a0.display_name
              a0.affiliation d0.topics (enrichAuthor ctx st a0 d0).2.2.1
              (enrichAuthor ctx st a0 d0).2.2.2])
            ++ [Event.progress (progressValue (step + 1) total)])
        refine ⟨?_, ?_, ?_, ?_, ?_⟩
        · rw [hindep.1]; exact hrest.1
        · rw [hindep.1]; exact hrest.2.1
        · rw [hindep.2, hrest.2.2.1]
          rfl
        · rw [runLoop_events_eq]
          simp only [List.filter_append, List.length_append, List.nil_append]
          rw [hrest.2.2.2.1]
          simp [Event.isError]
        · rw [runLoop_events_eq]
          simp only [List.filter_append, List.length_append, List.nil_append]
          rw [hrest.2.2.2.2]
          simp [Event.isCandidate]
          omega

/-- **C2.** If discovery succeeds and the author at 0-based position `i`
(the `(i+1)`-st author) raises during enrichment while all earlier ones
enrich, the run stops there: the job ends ERROR with the stringified
cause, exactly one `error` event and exactly `i` `candidate` events are
emitted, and the final store is exactly the incoming store extended by
the `i` persisted candidates (with their publications, affiliation rows
and analysis summaries) — no rollback. -/
theorem run_search_enrichment_error_aborts (job : JobRow) (ctx : RunCtx)
    (st : Store) (authors : List (Author × Except String AuthorData))
    (i : ℕ) (a : Author) (e : String)
    (h1 : authors.get? i = some (a, .error e))
    (h2 : ∀ j, j < i → okB (authors.get? j) = true) :
    (run_search job ctx (.ok authors) st).1.status = .error ∧
    (run_search job ctx (.ok authors) st).1.error = some e ∧
    ((run_search job ctx (.ok authors) st).2.2.filter Event.isError).length = 1 ∧
    ((run_search job ctx (.ok authors) st).2.2.filter Event.isCandidate).length = i ∧
    (run_search job ctx (.ok authors) st).2.1
      = processPrefix ctx st (okPrefixData (authors.take i)) := by
  rcases authors with _ | ⟨p, rest⟩
  · simp at h1
  · simp only [run_search, List.isEmpty_cons, Bool.false_eq_true, if_false]
    have hloop := runLoop_error_at ctx (p :: rest).length i (p :: rest) 0
      { job with status := .running, progress := 1 } st a e h1 h2
    have hindep := runLoop_job_store_indep ctx (p :: rest).length (p :: rest) 0
      { job with status := .running, progress := 1 } st [Event.progress 1]
    refine ⟨?_, ?_, ?_, ?_, ?_⟩
    · rw [hindep.1]; exact hloop.1
    · rw [hindep.1]; exact hloop.2.1
    · rw [runLoop_events_eq]
      simp only [List.filter_append, List.length_append]
      rw [hloop.2.2.2.1]
      simp [Event.isError]
    · rw [runLoop_events_eq]
      simp only [List.filter_append, List.length_append]
      rw [hloop.2.2.2.2]
      simp [Event.isCandidate]
    · rw [hindep.2]; exact hloop.2.2.1

/-- Witness for `run_search_enrichment_error_aborts`: the 2nd of 2
authors fails after the 1st enriches. -/
theorem run_search_enrichment_error_aborts_witness :
    (run_search pendingJob sampleCtx
      (.ok [(sampleAuthor, .ok sampleData), (sampleAuthor, .error "boom")])
      emptyStore).1.status = .error ∧
    (run_search pendingJob sampleCtx
      (.ok [(sampleAuthor, .ok sampleData), (sampleAuthor, .error "boom")])
      emptyStore).1.error = some "boom" ∧
    ((run_search pendingJob sampleCtx
      (.ok [(sampleAuthor, .ok sampleData), (sampleAuthor, .error "boom")])
      emptyStore).2.2.filter Event.isError).length = 1 ∧
    ((run_search pendingJob sampleCtx
      (.ok [(sampleAuthor, .ok sampleData), (sampleAuthor, .error "boom")])
      emptyStore).2.2.filter Event.isCandidate).length = 1 ∧
    (run_search pendingJob sampleCtx
      (.ok [(sampleAuthor, .ok sampleData), (sampleAuthor, .error "boom")])
      emptyStore).2.1
      = processPrefix sampleCtx emptyStore (okPrefixData
          ([(sampleAuthor, .ok sampleData), (sampleAuthor, .error "boom")].take 1)) :=
  run_search_enrichment_error_aborts pendingJob sampleCtx emptyStore
    [(sampleAuthor, .ok sampleData), (sampleAuthor, .error "boom")] 1
    sampleAuthor "boom" rfl
    (by intro j hj; interval_cases j; rfl)

/-! ## Status endpoint (`main.get_search`) -/

/-- The SQL join of `analysis_summary` with `candidate` on
`candidate.id = analysis_summary.candidate_id`, projected to
`(candidate_id, name, total_score)` (candidate ids are unique, so the
join associates each summary with at most one candidate row). -/
def joinRows (st : Store) : List (ℕ × String × ℚ) :=
  st.summaries.filterMap (fun sm =>
    (st.candidates.find? (fun c => c.id = sm.candidate_id)).map
      (fun c => (c.id, c.name, sm.total_score)))

/-- `main.get_search`: `none` for a missing job (HTTP 404); otherwise
status, progress and — only when the job is RUNNING or DONE — the joined
candidates ordered by `total_score DESC` limited to 20 (`ORDER BY ...
DESC LIMIT 20`, modelled as a stable descending sort).  Any other status
(ERROR, PENDING) returns an empty candidate list. -/
def get_search (job : Option JobRow) (st : Store) :
    Option (JStatus × ℤ × List (ℕ × String × ℚ)) :=
  match job with
  | none => none
  | some j =>
    let results :=
      if j.status = .running ∨ j.status = .done then
        ((joinRows st).mergeSort (fun a b => b.2.2 ≤ a.2.2)).take 20
      else []
    some (j.status, j.progress, results)

/-- A job that ended in ERROR. -/
def errorJob : JobRow := ⟨.error, 42, some "boom"⟩

/-- A store holding one persisted candidate with an analysis summary. -/
def storeWithOne : Store :=
  ⟨1, [⟨0, "Alice", none, "A1"⟩], [], [], [⟨0, [], 9/10, "senior"⟩]⟩

/-- **C3 (counterexample).** For an ERROR job, `get_search` returns an
*empty* candidate list even though a candidate persisted before the
failure is in the store (the endpoint only exposes candidates for
RUNNING/DONE jobs). -/
theorem get_search_error_job_returns_no_candidates :
    get_search (some errorJob) storeWithOne = some (.error, 42, []) ∧
    joinRows storeWithOne ≠ [] := by
  constructor
  · rfl
  · intro hcon
    have : (joinRows storeWithOne).length = 0 := by rw [hcon]; rfl
    rw [show (joinRows storeWithOne).length = 1 from by decide] at this
    exact absurd this (by norm_num)

/-- **C3 (amended).** For every existing job, `get_search` returns at
most 20 joined candidates sorted by `total_score` descending, all drawn
from the store; but for a job whose status is ERROR the returned
candidate list is empty — candidates persisted before the failure stay
in the store yet are not exposed by this endpoint. -/
theorem get_search_top20_sorted_error_empty (job : JobRow) (st : Store) :
    ∃ res, get_search (some job) st = some (job.status, job.progress, res) ∧
      res.length ≤ 20 ∧
      res.Pairwise (fun a b => b.2.2 ≤ a.2.2) ∧
      (∀ x ∈ res, x ∈ joinRows st) ∧
      (job.status = .error → res = []) := by
  refine ⟨_, rfl, ?_, ?_, ?_, ?_⟩ <;>
    by_cases h : job.status = .running ∨ job.status = .done
  · rw [if_pos h]
    simp [List.length_take]
  · rw [if_neg h]
    simp
  · rw [if_pos h]
    have htrans : ∀ (a b c : ℕ × String × ℚ),
        (fun a b => decide (b.2.2 ≤ a.2.2)) a b = true →
        (fun a b => decide (b.2.2 ≤ a.2.2)) b c = true →
        (fun a b => decide (b.2.2 ≤ a.2.2)) a c = true := by
      intro a b c hab hbc
      simp only [decide_eq_true_eq] at hab hbc ⊢
      exact le_trans hbc hab
    have htotal : ∀ (a b : ℕ × String × ℚ),
        ((fun a b => decide (b.2.2 ≤ a.2.2)) a b
          || (fun a b => decide (b.2.2 ≤ a.2.2)) b a) = true := by
      intro a b
      simp only [Bool.or_eq_true, decide_eq_true_eq]
      exact le_total _ _
    have hs := List.sorted_mergeSort htrans htotal (joinRows st)
    have hp := hs.sublist (List.take_sublist 20 _)
    exact hp.imp (fun h => by simpa using h)
  · rw [if_neg h]
    simp
  · rw [if_pos h]
    intro x hx
    have hx2 := List.take_subset 20 _ hx
    exact List.mem_mergeSort.mp hx2
  · rw [if_neg h]
    simp
  · rw [if_pos h]
    intro he
    rcases h with h | h <;> rw [he] at h <;> exact absurd h (by simp)
  · rw [if_neg h]
    intro _
    rfl

/-! ## Embedder (`embeddings.SimpleEmbedder`) and retrieval (`rag.query_tweets`)

The md5 token hash is an external primitive; it is modelled as an
arbitrary function `hash : String → ℕ` (every theorem below holds for
all hash functions, hence for md5).  Square roots put the normalized
vectors in `ℝ`. -/

/-- The punctuation set of `SimpleEmbedder._tokenize`'s `str.strip`. -/
def stripChars : List Char := ".,:;()[]{}\"'\n\t !?-_/".data

/-- Python `t.strip(chars)`: drop the given characters from both ends. -/
def pyStrip (s : String) (cs : List Char) : String :=
  String.mk (((s.data.dropWhile (fun c => c ∈ cs)).reverse.dropWhile
    (fun c => c ∈ cs)).reverse)

/-- Python `str.isascii`. -/
def isAsciiStr (s : String) : Bool := s.data.all (fun c => c.toNat < 128)

/-- Python `text.split()`: split on whitespace runs, no empty pieces. -/
def pySplitWS (s : String) : List String :=
  (s.split Char.isWhitespace).filter (fun t => t ≠ "")

/-- `SimpleEmbedder._tokenize`: whitespace-split, keep ascii tokens,
strip the punctuation set and lowercase. -/
def tokenize (text : String) : List String :=
  ((pySplitWS text).filter (fun t => isAsciiStr t)).map
    (fun t => lowerTok (pyStrip t stripChars))

/-- The signed-count accumulator of `SimpleEmbedder.embed` (the list
branch): start from the zero vector of length `dim`; for each token with
hash `h`, add `−1` or `+1` (by bit 1 of `h`) at index `h % dim`. -/
def rawEmbed (hash : String → ℕ) (dim : ℕ) (text : String) : List ℤ :=
  (tokenize text).foldl (fun vec tok =>
    let h := hash tok
    let i := h % dim
    let sign : ℤ := if (h >>> 1) % 2 = 1 then -1 else 1
    vec.set i (vec.getD i 0 + sign)) (List.replicate dim 0)

/-- Sum of squares of a real vector. -/
def sumSqR (v : List ℝ) : ℝ := (v.map (fun x => x * x)).sum

/-- Euclidean norm of a real vector (`math.sqrt(sum(v*v for v in vec))`). -/
noncomputable def norm2 (v : List ℝ) : ℝ := Real.sqrt (sumSqR v)

/-- `sum(x * y for x, y in zip(a, b))`. -/
def dotR (a b : List ℝ) : ℝ := ((a.zip b).map (fun p => p.1 * p.2)).sum

/-- `SimpleEmbedder.embed` (list branch): the signed-count vector,
L2-normalized when its norm is positive. -/
noncomputable def embed (hash : String → ℕ) (dim : ℕ) (text : String) :
    List ℝ :=
  let raw : List ℝ := (rawEmbed hash dim text).map (Int.cast : ℤ → ℝ)
  let norm := norm2 raw
  if 0 < norm then raw.map (fun v => v / norm) else raw

/-- `embeddings.cosine_similarity` (list branch): `ValueError` on length
mismatch; `0.0` when the norm product is zero (falsy), else
`dot / (‖a‖·‖b‖)`. -/
noncomputable def cosine_similarity (a b : List ℝ) : Except String ℝ :=
  if a.length ≠ b.length then .error "shape mismatch"
  else
    let dot := dotR a b
    let denom := norm2 a * norm2 b
    .ok (if denom = 0 then 0 else dot / denom)

lemma sumSqR_nonneg (v : List ℝ) : 0 ≤ sumSqR v := by
  unfold sumSqR
  induction v with
  | nil => simp
  | cons x xs ih =>
    simp only [List.map_cons, List.sum_cons]
    nlinarith [sq_nonneg x]

lemma sumSqR_map_div (v : List ℝ) (c : ℝ) :
    sumSqR (v.map (fun x => x / c)) = sumSqR v / (c * c) := by
  unfold sumSqR
  induction v with
  | nil => simp
  | cons x xs ih =>
    simp only [List.map_cons, List.sum_cons, ih]
    rw [div_mul_div_comm, add_div]

lemma sumSqR_eq_zero_all_zero {v : List ℝ} (h : sumSqR v = 0) :
    ∀ x ∈ v, x = 0 := by
  induction v with
  | nil => simp
  | cons x xs ih =>
    intro y hy
    unfold sumSqR at h
    simp only [List.map_cons, List.sum_cons] at h
    have h1 : 0 ≤ x * x := mul_self_nonneg x
    have h2 : 0 ≤ sumSqR xs := sumSqR_nonneg xs
    unfold sumSqR at h2
    have hx : x * x = 0 := by linarith
    rcases List.mem_cons.mp hy with rfl | hy
    · exact (mul_self_eq_zero).mp hx
    · exact ih (by unfold sumSqR; linarith) y hy

lemma dotR_zero_left {a : List ℝ} (h : ∀ x ∈ a, x = 0) (b : List ℝ) :
    dotR a b = 0 := by
  unfold dotR
  induction a generalizing b with
  | nil => simp
  | cons x xs ih =>
    rcases b with _ | ⟨y, ys⟩
    · simp
    · simp only [List.zip_cons_cons, List.map_cons, List.sum_cons]
      rw [h x (List.mem_cons_self _ _), zero_mul,
        ih (fun z hz => h z (List.mem_cons_of_mem _ hz)) ys, add_zero]

lemma dotR_zero_right (a : List ℝ) {b : List ℝ} (h : ∀ x ∈ b, x = 0) :
    dotR a b = 0 := by
  unfold dotR
  induction a generalizing b with
  | nil => simp
  | cons x xs ih =>
    rcases b with _ | ⟨y, ys⟩
    · simp
    · simp only [List.zip_cons_cons, List.map_cons, List.sum_cons]
      rw [h y (List.mem_cons_self _ _), mul_zero,
        ih (fun z hz => h z (List.mem_cons_of_mem _ hz)), add_zero]

lemma norm2_mem_zero_one (hash : String → ℕ) (dim : ℕ) (t : String) :
    norm2 (embed hash dim t) = 0 ∨ norm2 (embed hash dim t) = 1 := by
  unfold embed
  set raw : List ℝ := (rawEmbed hash dim t).map (Int.cast : ℤ → ℝ) with hraw
  by_cases h : 0 < norm2 raw
  · right
    rw [if_pos h]
    have hS : 0 < sumSqR raw := by
      unfold norm2 at h
      exact (Real.sqrt_pos).mp h
    unfold norm2
    rw [sumSqR_map_div, Real.mul_self_sqrt (sumSqR_nonneg raw),
      div_self (ne_of_gt hS), Real.sqrt_one]
  · left
    rw [if_neg h]
    have h0 : 0 ≤ norm2 raw := Real.sqrt_nonneg _
    have : norm2 raw = 0 := le_antisymm (not_lt.mp h) h0
    exact this

lemma rawEmbed_length (hash : String → ℕ) (dim : ℕ) (t : String) :
    (rawEmbed hash dim t).length = dim := by
  unfold rawEmbed
  have key : ∀ (f : List ℤ → String → List ℤ),
      (∀ v s, (f v s).length = v.length) →
      ∀ (toks : List String) (vec : List ℤ),
        (toks.foldl f vec).length = vec.length := by
    intro f hf toks
    induction toks with
    | nil => intro vec; rfl
    | cons s ts ih => intro vec; rw [List.foldl_cons, ih, hf]
  rw [key _ (fun v s => by simp) _ _, List.length_replicate]

lemma embed_length (hash : String → ℕ) (dim : ℕ) (t : String) :
    (embed hash dim t).length = dim := by
  simp only [embed]
  split
  · rw [List.length_map, List.length_map, rawEmbed_length]
  · rw [List.length_map, rawEmbed_length]

lemma norm2_zero_sumSq_zero {v : List ℝ} (h : norm2 v = 0) : sumSqR v = 0 := by
  unfold norm2 at h
  exact le_antisymm ((Real.sqrt_eq_zero').mp h) (sumSqR_nonneg v)

lemma cosine_similarity_embed_eq_dot (hash : String → ℕ) (dim : ℕ)
    (t1 t2 : String) :
    cosine_similarity (embed hash dim t1) (embed hash dim t2)
      = .ok (dotR (embed hash dim t1) (embed hash dim t2)) := by
  simp only [cosine_similarity]
  rw [if_neg (by simp [embed_length])]
  congr 1
  rcases norm2_mem_zero_one hash dim t1 with h1 | h1
  · have hz : ∀ x ∈ embed hash dim t1, x = 0 :=
      sumSqR_eq_zero_all_zero (norm2_zero_sumSq_zero h1)
    rw [if_pos (by rw [h1, zero_mul]), dotR_zero_left hz]
  · rcases norm2_mem_zero_one hash dim t2 with h2 | h2
    · have hz : ∀ x ∈ embed hash dim t2, x = 0 :=
        sumSqR_eq_zero_all_zero (norm2_zero_sumSq_zero h2)
      rw [if_pos (by rw [h2, mul_zero]), dotR_zero_right _ hz]
    · rw [h1, h2]
      norm_num

/-- **C10.** Every vector produced by `SimpleEmbedder.embed` (for any
token hash, so in particular md5) has Euclidean norm exactly `0` (empty
accumulator) or exactly `1`; consequently the raw dot product that
`query_tweets` computes on two embedded vectors coincides with
`cosine_similarity` on them, so ranking by dot equals ranking by cosine. -/
theorem embed_norm_zero_or_one_and_dot_eq_cosine (hash : String → ℕ)
    (dim : ℕ) (t1 t2 : String) :
    (norm2 (embed hash dim t1) = 0 ∨ norm2 (embed hash dim t1) = 1) ∧
    cosine_similarity (embed hash dim t1) (embed hash dim t2)
      = .ok (dotR (embed hash dim t1) (embed hash dim t2)) :=
  ⟨norm2_mem_zero_one hash dim t1, cosine_similarity_embed_eq_dot hash dim t1 t2⟩

/-- Sum of squares of a rational (stored float) vector. -/
def sumSqQ (v : List ℚ) : ℚ := (v.map (fun x => x * x)).sum

/-- `dot` of `rag.query_tweets`: `sum(x * y for x, y in zip(a, b))`. -/
def dotQ (a b : List ℚ) : ℚ := ((a.zip b).map (fun p => p.1 * p.2)).sum

/-- Cosine similarity of two stored vectors (the spec's similarity
notion), with the zero-norm convention of `embeddings.cosine_similarity`:
`0` when either norm is zero. -/
noncomputable def cosineSimQ (a b : List ℚ) : ℝ :=
  if Real.sqrt ((sumSqQ a : ℝ)) * Real.sqrt ((sumSqQ b : ℝ)) = 0 then 0
  else ((dotQ a b : ℚ) : ℝ)
    / (Real.sqrt ((sumSqQ a : ℝ)) * Real.sqrt ((sumSqQ b : ℝ)))

/-- The comparison of `sorted(range(len(sims)), key=lambda i: -sims[i])`:
Python's sort is stable, and on the distinct indices of `range(n)` a
stable sort by descending similarity is exactly a sort by the total order
"(similarity descending, index ascending)". -/
def rankIdx (sims : List ℚ) (i j : ℕ) : Bool :=
  decide (sims.getD j 0 < sims.getD i 0 ∨ (sims.getD i 0 = sims.getD j 0 ∧ i ≤ j))

/-- `top_idx`: the `k` best row indices. -/
def topIdx (sims : List ℚ) (k : ℕ) : List ℕ :=
  ((List.range sims.length).mergeSort (rankIdx sims)).take k

/-- `rag.query_tweets` over the loaded embedding rows (`mat` with their
`post_ids`) and the candidate's posts `(post_id, text)`: rank rows by raw
dot product with the query vector, take the `k` best, fetch the posts
whose id was selected, and return them in selection order via the
`id2obj` dict (last write wins, hence the reverse lookup). -/
def query_tweets (mat : List (List ℚ)) (post_ids : List String)
    (posts : List (String × String)) (q_vec : List ℚ) (k : ℕ) :
    List (String × String) :=
  if mat = [] then []
  else
    let sims := mat.map (fun row => dotQ row q_vec)
    let selected := (topIdx sims k).map (fun i => post_ids.getD i "")
    let results := posts.filter (fun p => p.1 ∈ selected)
    selected.filterMap (fun pid => results.reverse.find? (fun r => r.1 = pid))

lemma sumSqQ_nonneg (v : List ℚ) : 0 ≤ sumSqQ v := by
  unfold sumSqQ
  induction v with
  | nil => simp
  | cons x xs ih =>
    simp only [List.map_cons, List.sum_cons]
    nlinarith [sq_nonneg x]

lemma sumSqQ_zero_all_zero {v : List ℚ} (h : sumSqQ v = 0) :
    ∀ x ∈ v, x = 0 := by
  induction v with
  | nil => simp
  | cons x xs ih =>
    intro y hy
    unfold sumSqQ at h
    simp only [List.map_cons, List.sum_cons] at h
    have h1 : 0 ≤ x * x := mul_self_nonneg x
    have h2 : 0 ≤ sumSqQ xs := sumSqQ_nonneg xs
    unfold sumSqQ at h2
    have hx : x * x = 0 := by linarith
    rcases List.mem_cons.mp hy with rfl | hy
    · exact (mul_self_eq_zero).mp hx
    · exact ih (by unfold sumSqQ; linarith) y hy

lemma dotQ_zero_left {a : List ℚ} (h : ∀ x ∈ a, x = 0) (b : List ℚ) :
    dotQ a b = 0 := by
  unfold dotQ
  induction a generalizing b with
  | nil => simp
  | cons x xs ih =>
    rcases b with _ | ⟨y, ys⟩
    · simp
    · simp only [List.zip_cons_cons, List.map_cons, List.sum_cons]
      rw [h x (List.mem_cons_self _ _), zero_mul,
        ih (fun z hz => h z (List.mem_cons_of_mem _ hz)) ys, add_zero]

lemma dotQ_zero_right (a : List ℚ) {b : List ℚ} (h : ∀ x ∈ b, x = 0) :
    dotQ a b = 0 := by
  unfold dotQ
  induction a generalizing b with
  | nil => simp
  | cons x xs ih =>
    rcases b with _ | ⟨y, ys⟩
    · simp
    · simp only [List.zip_cons_cons, List.map_cons, List.sum_cons]
      rw [h y (List.mem_cons_self _ _), mul_zero,
        ih (fun z hz => h z (List.mem_cons_of_mem _ hz)), add_zero]

/-- On unit-or-zero-norm vectors the cosine similarity *is* the dot
product. -/
lemma cosineSimQ_eq_dot {a b : List ℚ}
    (ha : sumSqQ a = 0 ∨ sumSqQ a = 1) (hb : sumSqQ b = 0 ∨ sumSqQ b = 1) :
    cosineSimQ a b = ((dotQ a b : ℚ) : ℝ) := by
  unfold cosineSimQ
  rcases ha with ha | ha
  · rw [if_pos (by rw [ha]; simp),
      dotQ_zero_left (sumSqQ_zero_all_zero ha) b]
    simp
  · rcases hb with hb | hb
    · rw [if_pos (by rw [hb]; simp),
        dotQ_zero_right a (sumSqQ_zero_all_zero hb)]
      simp
    · rw [ha, hb]
      norm_num

lemma rankIdx_trans (sims : List ℚ) : ∀ (a b c : ℕ),
    rankIdx sims a b = true → rankIdx sims b c = true →
    rankIdx sims a c = true := by
  intro a b c hab hbc
  simp only [rankIdx, decide_eq_true_eq] at hab hbc ⊢
  rcases hab with h1 | ⟨h1, h1le⟩ <;> rcases hbc with h2 | ⟨h2, h2le⟩
  · exact Or.inl (lt_trans h2 h1)
  · exact Or.inl (h2 ▸ h1)
  · exact Or.inl (by rw [h1]; exact h2)
  · exact Or.inr ⟨h1.trans h2, le_trans h1le h2le⟩

lemma rankIdx_total (sims : List ℚ) : ∀ (a b : ℕ),
    (rankIdx sims a b || rankIdx sims b a) = true := by
  intro a b
  simp only [rankIdx, Bool.or_eq_true, decide_eq_true_eq]
  rcases lt_trichotomy (sims.getD a 0) (sims.getD b 0) with h | h | h
  · exact Or.inr (Or.inl h)
  · rcases Nat.le_total a b with hab | hab
    · exact Or.inl (Or.inr ⟨h, hab⟩)
    · exact Or.inr (Or.inr ⟨h.symm, hab⟩)
  · exact Or.inl (Or.inl h)

/-- Structural properties of `topIdx`: `min k n` distinct in-range
indices, internally sorted by `rankIdx`, each dominating every
unselected index. -/
lemma topIdx_spec (sims : List ℚ) (k : ℕ) :
    (topIdx sims k).length = min k sims.length ∧
    (topIdx sims k).Nodup ∧
    (∀ i ∈ topIdx sims k, i < sims.length) ∧
    (topIdx sims k).Pairwise (fun i j => rankIdx sims i j = true) ∧
    (∀ j, j < sims.length → j ∉ topIdx sims k →
      ∀ i ∈ topIdx sims k, rankIdx sims i j = true) := by
  have hperm : List.Perm ((List.range sims.length).mergeSort (rankIdx sims))
      (List.range sims.length) := List.mergeSort_perm _ _
  have hnodup : ((List.range sims.length).mergeSort (rankIdx sims)).Nodup :=
    hperm.nodup_iff.mpr (List.nodup_range _)
  have hlen : ((List.range sims.length).mergeSort (rankIdx sims)).length
      = sims.length := by
    rw [List.length_mergeSort, List.length_range]
  have hsorted : ((List.range sims.length).mergeSort (rankIdx sims)).Pairwise
      (fun i j => rankIdx sims i j = true) :=
    List.sorted_mergeSort (rankIdx_trans sims) (rankIdx_total sims) _
  have hmem : ∀ i, i ∈ (List.range sims.length).mergeSort (rankIdx sims)
      ↔ i < sims.length := by
    intro i
    rw [List.mem_mergeSort, List.mem_range]
  refine ⟨?_, ?_, ?_, ?_, ?_⟩
  · rw [topIdx, List.length_take, hlen]
  · exact hnodup.sublist (List.take_sublist _ _)
  · intro i hi
    exact (hmem i).mp (List.take_subset _ _ hi)
  · exact List.Pairwise.sublist (List.take_sublist _ _) hsorted
  · intro j hj hnot i hi
    have hsplit := (List.take_append_drop k
      ((List.range sims.length).mergeSort (rankIdx sims)))
    have hpw := hsorted
    rw [← hsplit] at hpw
    have hjl : j ∈ (List.range sims.length).mergeSort (rankIdx sims) :=
      (hmem j).mpr hj
    rw [← hsplit, List.mem_append] at hjl
    rcases hjl with hjl | hjl
    · exact absurd hjl hnot
    · exact (List.pairwise_append.mp hpw).2.2 i hi j hjl

/-- Looking up each id of `sel` in `res` (every id present) returns a
row list whose ids are exactly `sel`, in order. -/
lemma filterMap_find_map_fst (sel : List String) (res : List (String × String))
    (h : ∀ pid ∈ sel, ∃ x ∈ res, x.1 = pid) :
    (sel.filterMap (fun pid => res.find? (fun r => r.1 = pid))).map Prod.fst
      = sel := by
  induction sel with
  | nil => rfl
  | cons pid rest ih =>
    obtain ⟨x, hx, hfst⟩ := h pid (List.mem_cons_self _ _)
    have hsome : (res.find? (fun r => r.1 = pid)).isSome :=
      List.find?_isSome.mpr ⟨x, hx, by simp [hfst]⟩
    obtain ⟨r, hr⟩ := Option.isSome_iff_exists.mp hsome
    have hrfst : r.1 = pid := by
      have h1 := List.find?_some hr
      simpa using h1
    rw [List.filterMap_cons, hr, List.map_cons, hrfst,
      ih (fun p hp => h p (List.mem_cons_of_mem _ hp))]

/-- **C9.** Over any stored corpus of embedded items (vectors of unit or
zero norm, as the embedder produces — see C10) whose post ids all
resolve to stored posts, `query_tweets` returns exactly the `min k n`
items of highest cosine similarity to the query embedding, in
similarity-descending order, with equal-similarity ties broken by the
rows' original insertion (load) order. -/
theorem query_tweets_top_k_by_cosine
    (mat : List (List ℚ)) (post_ids : List String)
    (posts : List (String × String)) (q : List ℚ) (k : ℕ)
    (hk : 1 ≤ k)
    (hlen : post_ids.length = mat.length)
    (hsub : ∀ pid ∈ post_ids, pid ∈ posts.map Prod.fst)
    (hnorm : ∀ v ∈ mat, sumSqQ v = 0 ∨ sumSqQ v = 1)
    (hq : sumSqQ q = 0 ∨ sumSqQ q = 1) :
    ∃ idxs : List ℕ,
      (query_tweets mat post_ids posts q k).map Prod.fst
        = idxs.map (fun i => post_ids.getD i "") ∧
      idxs.length = min k mat.length ∧
      idxs.Nodup ∧
      (∀ i ∈ idxs, i < mat.length) ∧
      idxs.Pairwise (fun i j =>
        cosineSimQ (mat.getD j []) q < cosineSimQ (mat.getD i []) q ∨
        (cosineSimQ (mat.getD i []) q = cosineSimQ (mat.getD j []) q ∧ i < j)) ∧
      (∀ j, j < mat.length → j ∉ idxs → ∀ i ∈ idxs,
        cosineSimQ (mat.getD j []) q < cosineSimQ (mat.getD i []) q ∨
        (cosineSimQ (mat.getD i []) q = cosineSimQ (mat.getD j []) q ∧ i < j)) ∧
      (∀ x ∈ query_tweets mat post_ids posts q k, x ∈ posts) := by
  by_cases hmat : mat = []
  · subst hmat
    refine ⟨[], ?_, ?_, ?_, ?_, ?_, ?_, ?_⟩
    · rw [query_tweets, if_pos rfl]
      rfl
    · simp
    · exact List.nodup_nil
    · simp
    · exact List.Pairwise.nil
    · simp
    · rw [query_tweets, if_pos rfl]
      simp
  · obtain ⟨hlen2, hnodup, hinrange, hpw, hdom⟩ :=
      topIdx_spec (mat.map (fun row => dotQ row q)) k
    have hsimslen : (mat.map (fun row => dotQ row q)).length = mat.length :=
      List.length_map _ _
    have hcast : ∀ i, i < mat.length →
        cosineSimQ (mat.getD i []) q
          = (((mat.map (fun row => dotQ row q)).getD i 0 : ℚ) : ℝ) := by
      intro i hi
      have hv : mat.getD i [] ∈ mat := by
        rw [List.getD_eq_getElem?_getD, List.getElem?_eq_getElem hi]
        exact List.getElem_mem _
      have h1 : (mat.map (fun row => dotQ row q)).getD i 0
          = dotQ (mat.getD i []) q := by
        rw [List.getD_eq_getElem?_getD, List.getElem?_map,
          List.getElem?_eq_getElem hi, List.getD_eq_getElem?_getD,
          List.getElem?_eq_getElem hi]
        rfl
      rw [cosineSimQ_eq_dot (hnorm _ hv) hq, h1]
    have hstrict : ∀ i j, i < mat.length → j < mat.length → i ≠ j →
        rankIdx (mat.map (fun row => dotQ row q)) i j = true →
        (cosineSimQ (mat.getD j []) q < cosineSimQ (mat.getD i []) q ∨
         (cosineSimQ (mat.getD i []) q = cosineSimQ (mat.getD j []) q ∧ i < j)) := by
      intro i j hi hj hne hr
      rw [hcast i hi, hcast j hj]
      simp only [rankIdx, decide_eq_true_eq] at hr
      rcases hr with h | ⟨heq, hle⟩
      · left
        exact_mod_cast h
      · right
        exact ⟨by exact_mod_cast heq, lt_of_le_of_ne hle hne⟩
    refine ⟨topIdx (mat.map (fun row => dotQ row q)) k, ?_, ?_, ?_, ?_, ?_, ?_, ?_⟩
    · rw [query_tweets, if_neg hmat]
      refine filterMap_find_map_fst _ _ ?_
      intro pid hpid
      obtain ⟨i, hi, rfl⟩ := List.mem_map.mp hpid
      have hilt : i < mat.length := hsimslen ▸ hinrange i hi
      have hpid_mem : post_ids.getD i "" ∈ post_ids := by
        rw [List.getD_eq_getElem?_getD,
          List.getElem?_eq_getElem (by omega : i < post_ids.length)]
        exact List.getElem_mem _
      obtain ⟨x, hxposts, hxfst⟩ := List.mem_map.mp (hsub _ hpid_mem)
      refine ⟨x, ?_, hxfst⟩
      rw [List.mem_reverse, List.mem_filter]
      refine ⟨hxposts, ?_⟩
      rw [hxfst]
      simp only [decide_eq_true_eq]
      exact List.mem_map.mpr ⟨i, hi, rfl⟩
    · rw [hlen2, hsimslen]
    · exact hnodup
    · intro i hi
      exact hsimslen ▸ hinrange i hi
    · have hcomb := hpw.and hnodup
      refine List.Pairwise.imp_of_mem ?_ hcomb
      intro i j hi hj hij
      exact hstrict i j (hsimslen ▸ hinrange i hi) (hsimslen ▸ hinrange j hj)
        hij.2 hij.1
    · intro j hj hnot i hi
      have hne : i ≠ j := fun hcon => hnot (hcon ▸ hi)
      exact hstrict i j (hsimslen ▸ hinrange i hi) hj hne
        (hdom j (hsimslen ▸ hj) hnot i hi)
    · intro x hx
      rw [query_tweets, if_neg hmat] at hx
      obtain ⟨pid, _, hfind⟩ := List.mem_filterMap.mp hx
      have hmem := List.mem_of_find?_eq_some hfind
      rw [List.mem_reverse, List.mem_filter] at hmem
      exact hmem.1

/-- Witness for `query_tweets_top_k_by_cosine`: a two-row corpus with a
unit query vector. -/
theorem query_tweets_top_k_by_cosine_witness :
    ∃ idxs : List ℕ,
      (query_tweets [[(1 : ℚ)], [0]] ["p1", "p2"]
          [("p1", "hello"), ("p2", "world")] [(1 : ℚ)] 1).map Prod.fst
        = idxs.map (fun i => (["p1", "p2"] : List String).getD i "") ∧
      idxs.length = min 1 ([[(1 : ℚ)], [0]] : List (List ℚ)).length ∧
      idxs.Nodup ∧
      (∀ i ∈ idxs, i < ([[(1 : ℚ)], [0]] : List (List ℚ)).length) ∧
      idxs.Pairwise (fun i j =>
        cosineSimQ (([[(1 : ℚ)], [0]] : List (List ℚ)).getD j []) [(1 : ℚ)]
          < cosineSimQ (([[(1 : ℚ)], [0]] : List (List ℚ)).getD i []) [(1 : ℚ)] ∨
        (cosineSimQ (([[(1 : ℚ)], [0]] : List (List ℚ)).getD i []) [(1 : ℚ)]
          = cosineSimQ (([[(1 : ℚ)], [0]] : List (List ℚ)).getD j []) [(1 : ℚ)] ∧
          i < j)) ∧
      (∀ j, j < ([[(1 : ℚ)], [0]] : List (List ℚ)).length → j ∉ idxs →
        ∀ i ∈ idxs,
        cosineSimQ (([[(1 : ℚ)], [0]] : List (List ℚ)).getD j []) [(1 : ℚ)]
          < cosineSimQ (([[(1 : ℚ)], [0]] : List (List ℚ)).getD i []) [(1 : ℚ)] ∨
        (cosineSimQ (([[(1 : ℚ)], [0]] : List (List ℚ)).getD i []) [(1 : ℚ)]
          = cosineSimQ (([[(1 : ℚ)], [0]] : List (List ℚ)).getD j []) [(1 : ℚ)] ∧
          i < j)) ∧
      (∀ x ∈ query_tweets [[(1 : ℚ)], [0]] ["p1", "p2"]
          [("p1", "hello"), ("p2", "world")] [(1 : ℚ)] 1,
        x ∈ [("p1", "hello"), ("p2", "world")]) :=
  query_tweets_top_k_by_cosine [[(1 : ℚ)], [0]] ["p1", "p2"]
    [("p1", "hello"), ("p2", "world")] [(1 : ℚ)] 1
    (by norm_num) rfl (by decide)
    (by
      intro v hv
      simp only [List.mem_cons, List.not_mem_nil, or_false] at hv
      rcases hv with rfl | rfl
      · exact Or.inr (by norm_num [sumSqQ])
      · exact Or.inl (by norm_num [sumSqQ]))
    (Or.inr (by norm_num [sumSqQ]))
